import Mathlib

/-!
Verification of the fantasy-baseball analysis script (`batters.py`).

The script is a single linear pipeline over a tabular dataset:
acquire batting statistics, derive a "Points" column as a fixed weighted
sum, export the enriched table to CSV, rank columns by their Pearson
correlation with Points, filter a denylist of degenerate columns, and fit
an ordinary-least-squares regression of Points on the selected columns.

We model the dataset as a list of rows, each row a function from column
name to an optional rational value (`none` models a missing value / NaN;
pandas arithmetic propagates NaN, which is `Option` propagation here).
Pearson correlation values `c / √(vx·vy)` are represented exactly by the
pair `(c, vx·vy)` of rationals with positive second component, avoiding
square roots while keeping the ordering and the value `1` expressible.
-/

namespace Batters

/-- A cell of the table: a numeric value or missing (pandas NaN). -/
abbrev Cell := Option ℚ

/-- A row of the table: column name to cell. -/
abbrev Row := String → Cell

/-- Elementwise addition of two cells, as pandas `+` on series entries:
missingness propagates. -/
def oadd : Cell → Cell → Cell
  | some a, some b => some (a + b)
  | _, _ => none

/-- A cell times a scalar, as pandas `series * k` on one entry:
missingness propagates. -/
def omul (k : ℚ) : Cell → Cell
  | some a => some (a * k)
  | none => none

/-- The per-row Points value, exactly the weighted sum of `batters.py`
lines 17-28 (left-associated, as Python evaluates it):
`R*2 + H*1 + 2B*1 + 3B*2 + HR*3 + RBI*2 + SB*1 + CS*(-1) + BB*1 + IBB*1
 + HBP*1 + SO*(-0.5)`. -/
def pointsRow (r : Row) : Cell :=
  oadd (oadd (oadd (oadd (oadd (oadd (oadd (oadd (oadd (oadd (oadd
    (omul 2 (r "R"))
    (omul 1 (r "H")))
    (omul 1 (r "2B")))
    (omul 2 (r "3B")))
    (omul 3 (r "HR")))
    (omul 2 (r "RBI")))
    (omul 1 (r "SB")))
    (omul (-1) (r "CS")))
    (omul 1 (r "BB")))
    (omul 1 (r "IBB")))
    (omul 1 (r "HBP")))
    (omul (-1/2) (r "SO"))

/-- The tabular dataset: ordered column names and a list of rows. -/
structure DF where
  cols : List String
  rows : List Row

/-- `batters["Points"] = ...` : add (or overwrite) the Points column;
pandas appends a new column at the end when the name is absent. -/
def addPoints (df : DF) : DF where
  cols := if "Points" ∈ df.cols then df.cols else df.cols ++ ["Points"]
  rows := df.rows.map fun r => fun c => if c = "Points" then pointsRow r else r c

theorem oadd_none_left (x : Cell) : oadd none x = none := by cases x <;> rfl

theorem oadd_none_right (x : Cell) : oadd x none = none := by cases x <;> rfl

theorem omul_none (k : ℚ) : omul k none = none := rfl

/-- **C1.** For every row in which all twelve weighted input columns
(R, H, 2B, 3B, HR, RBI, SB, CS, BB, IBB, HBP, SO) hold defined numeric
values, the derived Points value equals exactly
`2R + H + 2B + 2·3B + 3·HR + 2·RBI + SB − CS + BB + IBB + HBP − 0.5·SO`. -/
theorem points_formula (r : Row)
    (vR vH v2 v3 vHR vRBI vSB vCS vBB vIBB vHBP vSO : ℚ)
    (hR : r "R" = some vR) (hH : r "H" = some vH)
    (h2 : r "2B" = some v2) (h3 : r "3B" = some v3)
    (hHR : r "HR" = some vHR) (hRBI : r "RBI" = some vRBI)
    (hSB : r "SB" = some vSB) (hCS : r "CS" = some vCS)
    (hBB : r "BB" = some vBB) (hIBB : r "IBB" = some vIBB)
    (hHBP : r "HBP" = some vHBP) (hSO : r "SO" = some vSO) :
    pointsRow r = some (2*vR + 1*vH + 1*v2 + 2*v3 + 3*vHR + 2*vRBI
      + 1*vSB - 1*vCS + 1*vBB + 1*vIBB + 1*vHBP - (1/2)*vSO) := by
  simp only [pointsRow, hR, hH, h2, h3, hHR, hRBI, hSB, hCS, hBB, hIBB, hHBP,
    hSO, omul, oadd, Option.some.injEq]
  ring

/-- A fully defined sample row: every input 1 except SO = 4. -/
def wrow1 : Row := fun c => if c = "SO" then some 4 else some 1

/-- Witness for C1 at a concrete row. -/
theorem points_formula_witness :
    pointsRow wrow1 = some (2*1 + 1*1 + 1*1 + 2*1 + 3*1 + 2*1
      + 1*1 - 1*1 + 1*1 + 1*1 + 1*1 - (1/2)*4) :=
  points_formula wrow1 1 1 1 1 1 1 1 1 1 1 1 4
    rfl rfl rfl rfl rfl rfl rfl rfl rfl rfl rfl rfl

/-- **C2.** For every row in which at least one weighted input column is
missing, the computed Points value is itself missing (`none`), not zero or
any default; `pointsRow` is a total function, so no error is raised. -/
theorem points_missing (r : Row)
    (h : r "R" = none ∨ r "H" = none ∨ r "2B" = none ∨ r "3B" = none ∨
      r "HR" = none ∨ r "RBI" = none ∨ r "SB" = none ∨ r "CS" = none ∨
      r "BB" = none ∨ r "IBB" = none ∨ r "HBP" = none ∨ r "SO" = none) :
    pointsRow r = none := by
  rcases h with h | h | h | h | h | h | h | h | h | h | h | h <;>
    simp [pointsRow, h, omul, oadd_none_left, oadd_none_right]

/-- A sample row missing only its HR value. -/
def wrow2 : Row := fun c => if c = "HR" then none else some 1

/-- Witness for C2 at a concrete row. -/
theorem points_missing_witness : pointsRow wrow2 = none :=
  points_missing wrow2 (Or.inr (Or.inr (Or.inr (Or.inr (Or.inl rfl)))))

/-! ## Variable filtering (`to_remove` denylist, lines 41-55) -/

/-- The hardcoded denylist of `batters.py` lines 41-50. -/
def to_remove : List String :=
  ["Points", "SB-X (pi)", "wSB/C (pi)", "KN% (pi)", "KN%", "XX% (pi)",
   "KN% (sc)", "CS% (pi)", "vSB (pi)", "SB% (pi)"]

/-- The filtering loop of lines 52-55: start from an empty list and append
each candidate not in the denylist, in order. -/
def regVarsFrom (cands : List String) : List String :=
  cands.foldl (fun acc par => if par ∈ to_remove then acc else acc ++ [par]) []

theorem regVarsFrom_acc (cands : List String) : ∀ acc : List String,
    cands.foldl (fun acc par => if par ∈ to_remove then acc else acc ++ [par]) acc
      = acc ++ cands.filter (fun p => p ∉ to_remove) := by
  induction cands with
  | nil => intro acc; simp
  | cons p rest ih =>
    intro acc
    by_cases hp : p ∈ to_remove <;>
      simp [List.foldl_cons, hp, ih, List.filter_cons]

/-- The loop computes an order-preserving filter of the candidate list. -/
theorem regVarsFrom_eq_filter (cands : List String) :
    regVarsFrom cands = cands.filter (fun p => p ∉ to_remove) := by
  simpa [regVarsFrom] using regVarsFrom_acc cands []

/-- **C5.** Filtering returns an ordered list that is a sublist of the
candidate list (relative order preserved), contains no denylisted name —
in particular never "Points" — and is a total set-subtraction: a
denylisted name absent from the candidates is simply a no-op (dropping it
from the candidate list leaves the result unchanged), with no error. -/
theorem regVarsFrom_spec (cands : List String) :
    (regVarsFrom cands).Sublist cands ∧
    (∀ v ∈ regVarsFrom cands, v ∉ to_remove) ∧
    "Points" ∉ regVarsFrom cands ∧
    (∀ d ∈ to_remove, regVarsFrom cands = regVarsFrom (cands.filter (fun p => p ≠ d))) := by
  refine ⟨?_, ?_, ?_, ?_⟩
  · rw [regVarsFrom_eq_filter]; exact List.filter_sublist _
  · intro v hv
    rw [regVarsFrom_eq_filter] at hv
    simpa using (List.of_mem_filter hv)
  · intro hv
    rw [regVarsFrom_eq_filter] at hv
    have := List.of_mem_filter hv
    simp [to_remove] at this
  · intro d hd
    rw [regVarsFrom_eq_filter, regVarsFrom_eq_filter, List.filter_filter]
    induction cands with
    | nil => rfl
    | cons p rest ih =>
      simp only [decide_not] at ih
      by_cases hp : p ∈ to_remove
      · simp [List.filter_cons, hp, ih]
      · have hpd : p ≠ d := fun e => hp (e ▸ hd)
        simp [List.filter_cons, hp, hpd, ih]

/-- Witness for C5 at a concrete candidate list containing "Points", one
other denylisted name and two keepers. -/
theorem regVarsFrom_spec_witness :
    (regVarsFrom ["Points", "HR", "KN%", "RBI"]).Sublist ["Points", "HR", "KN%", "RBI"] ∧
    "Points" ∉ regVarsFrom ["Points", "HR", "KN%", "RBI"] := by
  refine ⟨(regVarsFrom_spec ["Points", "HR", "KN%", "RBI"]).1, ?_⟩
  exact (regVarsFrom_spec ["Points", "HR", "KN%", "RBI"]).2.2.1

/-! ## Regression design (lines 57-61): `y = batters["Points"]`,
`x = batters[reg_variables]`, `model = sm.OLS(y, x)` -/

/-- `batters[vars]`: the design matrix handed to the regression — one row
per dataset row, whose entries are exactly the raw cells of the selected
columns, in order. No other column is built. -/
def colMatrix (df : DF) (vars : List String) : List (List Cell) :=
  df.rows.map fun r => vars.map fun c => r c

/-- What `sm.add_constant` would do (the script does NOT call it): prepend
a constant-1 column to the design matrix. -/
def addConstant (m : List (List Cell)) : List (List Cell) :=
  m.map fun row => some 1 :: row

/-- **C8.** The OLS fit is run on the raw selected predictor columns only:
every design-matrix row has exactly one entry per selected column, each
equal to the raw cell value, and for a nonempty dataset the matrix differs
from the intercept-augmented matrix that `add_constant` would produce. -/
theorem colMatrix_no_intercept (df : DF) (vars : List String)
    (hne : df.rows ≠ []) :
    (∀ row ∈ colMatrix df vars, row.length = vars.length) ∧
    (∀ r ∈ df.rows, (vars.map fun c => r c) ∈ colMatrix df vars) ∧
    colMatrix df vars ≠ addConstant (colMatrix df vars) := by
  refine ⟨?_, ?_, ?_⟩
  · intro row hrow
    rcases List.mem_map.mp hrow with ⟨r, _, hr⟩
    simp [← hr]
  · intro r hr
    exact List.mem_map.mpr ⟨r, hr, rfl⟩
  · intro heq
    rcases List.exists_mem_of_ne_nil df.rows hne with ⟨r, hr⟩
    have h1 : (vars.map fun c => r c).length = vars.length := by simp
    have h2 : ((some 1 : Cell) :: (vars.map fun c => r c)) ∈ addConstant (colMatrix df vars) :=
      List.mem_map.mpr ⟨vars.map fun c => r c, List.mem_map.mpr ⟨r, hr, rfl⟩, rfl⟩
    rw [← heq] at h2
    rcases List.mem_map.mp h2 with ⟨r2, _, hr2⟩
    have := congrArg List.length hr2
    simp at this

/-- A tiny concrete dataset: two rows over columns "HR", "RBI". -/
def wdf : DF where
  cols := ["HR", "RBI"]
  rows := [fun c => if c = "HR" then some 3 else some 5,
           fun c => if c = "HR" then some 1 else some 2]

/-- Witness for C8 at a concrete dataset and variable list. -/
theorem colMatrix_no_intercept_witness :
    (∀ row ∈ colMatrix wdf ["HR"], row.length = (["HR"] : List String).length) ∧
    colMatrix wdf ["HR"] ≠ addConstant (colMatrix wdf ["HR"]) := by
  refine ⟨(colMatrix_no_intercept wdf ["HR"] ?h).1, (colMatrix_no_intercept wdf ["HR"] ?h).2.2⟩
  case h => simp [wdf]

/-! ## Export (`batters.to_csv("batterpoints.csv")`, line 30) -/

/-- Render one cell: pandas writes an empty field for NaN. -/
def showCell : Cell → String
  | none => ""
  | some q => toString q.num ++ (if q.den = 1 then "" else "/" ++ toString q.den)

/-- The serialized table, as `to_csv` with its defaults builds it: a header
line with a blank leading field for the unnamed index then the column
names, followed by one line per row, led by the row's integer index. -/
def toCsv (df : DF) : List (List String) :=
  ("" :: df.cols) ::
    df.rows.enum.map fun ie => toString ie.1 :: df.cols.map fun c => showCell (ie.2 c)

/-- **C7.** The exported file is the full enriched table: a header naming
all original columns plus Points (original+1 data columns), one line per
dataset row, every line carrying (original+1)+1 fields, the extra one
being the row index serialized as an explicit leading column. -/
theorem toCsv_shape (df : DF) (hp : "Points" ∉ df.cols) :
    (toCsv (addPoints df)).length = df.rows.length + 1 ∧
    (toCsv (addPoints df)).head? = some ("" :: (df.cols ++ ["Points"])) ∧
    (∀ line ∈ (toCsv (addPoints df)).tail, line.length = (df.cols.length + 1) + 1) ∧
    (∀ i r, df.rows.get? i = some r →
      (toCsv (addPoints df)).get? (i + 1) =
        some (toString i :: (df.cols ++ ["Points"]).map
          fun c => showCell (if c = "Points" then pointsRow r else r c))) := by
  refine ⟨?_, ?_, ?_, ?_⟩
  · simp [toCsv, addPoints, hp]
  · simp [toCsv, addPoints, hp]
  · intro line hline
    simp only [toCsv, addPoints, hp, if_neg, List.tail_cons, List.mem_map] at hline
    rcases hline with ⟨ie, _, hie⟩
    simp [← hie]
  · intro i r hr
    have hr2 : df.rows[i]? = some r := by rw [← List.get?_eq_getElem?]; exact hr
    simp [toCsv, addPoints, hp, List.get?_eq_getElem?, List.getElem?_map,
      List.getElem?_enum, hr2]

/-- Witness for C7 at the concrete two-row dataset `wdf`. -/
theorem toCsv_shape_witness :
    (toCsv (addPoints wdf)).length = wdf.rows.length + 1 ∧
    (toCsv (addPoints wdf)).head? = some ("" :: (wdf.cols ++ ["Points"])) := by
  have h := toCsv_shape wdf (by simp [wdf])
  exact ⟨h.1, h.2.1⟩

/-! ## Pipeline step order (the statement sequence of `batters.py`) -/

/-- The successive stages of the script, in declaration order. -/
inductive Stage
  | acquire | score | exportCsv | correlate | filterVars | regress
  deriving DecidableEq

/-- The script's statement order: fetch (line 14), derive Points (17),
write the CSV (30), correlate (33-38), filter (52-55), regress (57-61). -/
def scriptOrder : List Stage :=
  [Stage.acquire, Stage.score, Stage.exportCsv, Stage.correlate,
   Stage.filterVars, Stage.regress]

/-- The stages a run completes, given which stages fail: execution is
sequential and stops at the first failing stage (errors propagate and
terminate the run). -/
def completedStages (failsAt : Stage → Bool) : List Stage :=
  scriptOrder.takeWhile fun s => !failsAt s

/-- **C10.** The CSV export precedes correlation ranking, variable
filtering and regression in the script; hence in any run whose first
failure is at one of those later stages (acquisition, scoring and the
export itself succeeded), the export has already completed — the file was
created or overwritten before the failure. -/
theorem export_before_regression (failsAt : Stage → Bool)
    (ha : failsAt Stage.acquire = false) (hs : failsAt Stage.score = false)
    (he : failsAt Stage.exportCsv = false) :
    scriptOrder.indexOf Stage.exportCsv < scriptOrder.indexOf Stage.correlate ∧
    scriptOrder.indexOf Stage.exportCsv < scriptOrder.indexOf Stage.filterVars ∧
    scriptOrder.indexOf Stage.exportCsv < scriptOrder.indexOf Stage.regress ∧
    Stage.exportCsv ∈ completedStages failsAt := by
  refine ⟨by decide, by decide, by decide, ?_⟩
  simp [completedStages, scriptOrder, List.takeWhile, ha, hs, he]

/-- Witness for C10: a run failing exactly at the regression stage. -/
theorem export_before_regression_witness :
    Stage.exportCsv ∈ completedStages (fun s => decide (s = Stage.regress)) :=
  (export_before_regression (fun s => decide (s = Stage.regress))
    (by decide) (by decide) (by decide)).2.2.2

/-! ## Pearson correlation (`batters.corr().Points`, line 33)

`DataFrame.corr` computes, for each column, the Pearson correlation with
Points over the pairwise-complete rows, yielding NaN when either series
has zero variance (or fewer than two observations). With
`n = #pairs`, `cov = n·Σxy − Σx·Σy`, `vx = n·Σx² − (Σx)²`,
`vy = n·Σy² − (Σy)²`, the coefficient is `cov / √(vx·vy)`; we represent
it exactly by the pair `(cov, vx·vy)` with `vx·vy > 0`. -/

/-- The pairwise-complete observations of two columns: the rows where
both cells are defined, in row order. -/
def pairsOf (df : DF) (c₁ c₂ : String) : List (ℚ × ℚ) :=
  df.rows.filterMap fun r =>
    match r c₁, r c₂ with
    | some a, some b => some (a, b)
    | _, _ => none

/-- Sum of the first coordinates. -/
def sA (ps : List (ℚ × ℚ)) : ℚ := (ps.map fun p => p.1).sum

/-- Sum of the second coordinates. -/
def sB (ps : List (ℚ × ℚ)) : ℚ := (ps.map fun p => p.2).sum

/-- Sum of the products. -/
def sAB (ps : List (ℚ × ℚ)) : ℚ := (ps.map fun p => p.1 * p.2).sum

/-- Sum of the squared first coordinates. -/
def sA2 (ps : List (ℚ × ℚ)) : ℚ := (ps.map fun p => p.1 ^ 2).sum

/-- Sum of the squared second coordinates. -/
def sB2 (ps : List (ℚ × ℚ)) : ℚ := (ps.map fun p => p.2 ^ 2).sum

theorem sA_cons (p : ℚ × ℚ) (t : List (ℚ × ℚ)) : sA (p :: t) = p.1 + sA t := by
  simp [sA]

theorem sB_cons (p : ℚ × ℚ) (t : List (ℚ × ℚ)) : sB (p :: t) = p.2 + sB t := by
  simp [sB]

theorem sAB_cons (p : ℚ × ℚ) (t : List (ℚ × ℚ)) : sAB (p :: t) = p.1 * p.2 + sAB t := by
  simp [sAB]

theorem sA2_cons (p : ℚ × ℚ) (t : List (ℚ × ℚ)) : sA2 (p :: t) = p.1 ^ 2 + sA2 t := by
  simp [sA2]

theorem sB2_cons (p : ℚ × ℚ) (t : List (ℚ × ℚ)) : sB2 (p :: t) = p.2 ^ 2 + sB2 t := by
  simp [sB2]

theorem sA2_nonneg (ps : List (ℚ × ℚ)) : 0 ≤ sA2 ps :=
  List.sum_nonneg fun x hx => by
    rcases List.mem_map.mp hx with ⟨p, _, hp⟩
    exact hp ▸ sq_nonneg p.1

theorem sB2_nonneg (ps : List (ℚ × ℚ)) : 0 ≤ sB2 ps :=
  List.sum_nonneg fun x hx => by
    rcases List.mem_map.mp hx with ⟨p, _, hp⟩
    exact hp ▸ sq_nonneg p.2

/-- Sums of a fixed linear combination of the five basis statistics. -/
theorem sum_basis (c1 c2 c3 c4 c5 k : ℚ) (ps : List (ℚ × ℚ)) :
    (ps.map fun p => c1 * p.1 + c2 * p.2 + c3 * (p.1 * p.2)
      + c4 * p.1 ^ 2 + c5 * p.2 ^ 2 + k).sum
      = c1 * sA ps + c2 * sB ps + c3 * sAB ps + c4 * sA2 ps + c5 * sB2 ps
        + ps.length * k := by
  induction ps with
  | nil => simp [sA, sB, sAB, sA2, sB2]
  | cons p t ih =>
    simp only [List.map_cons, List.sum_cons, List.length_cons, ih,
      sA_cons, sB_cons, sAB_cons, sA2_cons, sB2_cons]
    push_cast
    ring

/-- Cauchy-Schwarz for lists of pairs of rationals. -/
theorem cauchy_list (ps : List (ℚ × ℚ)) : (sAB ps) ^ 2 ≤ sA2 ps * sB2 ps := by
  induction ps with
  | nil => simp [sAB, sA2, sB2]
  | cons p t ih =>
    have hX : 0 ≤ sA2 t := sA2_nonneg t
    have hY : 0 ≤ sB2 t := sB2_nonneg t
    rcases eq_or_lt_of_le hY with hY0 | hYpos
    · have hS : sAB t = 0 := by nlinarith [ih, sq_nonneg (sAB t)]
      simp only [sAB_cons, sA2_cons, sB2_cons, hS, ← hY0]
      nlinarith [mul_nonneg hX (sq_nonneg p.2)]
    · simp only [sAB_cons, sA2_cons, sB2_cons]
      nlinarith [ih, sq_nonneg (p.1 * sB2 t - p.2 * sAB t),
        mul_nonneg (sq_nonneg p.2) (sub_nonneg.mpr ih),
        mul_nonneg hYpos.le (sub_nonneg.mpr ih)]

/-- `n·Σxy − Σx·Σy` (n² times the covariance). -/
def covN (ps : List (ℚ × ℚ)) : ℚ := ps.length * sAB ps - sA ps * sB ps

/-- `n·Σx² − (Σx)²` (n² times the variance of the first coordinates). -/
def vxN (ps : List (ℚ × ℚ)) : ℚ := ps.length * sA2 ps - sA ps ^ 2

/-- `n·Σy² − (Σy)²` (n² times the variance of the second coordinates). -/
def vyN (ps : List (ℚ × ℚ)) : ℚ := ps.length * sB2 ps - sB ps ^ 2

theorem vxN_nonneg (ps : List (ℚ × ℚ)) : 0 ≤ vxN ps := by
  have h := cauchy_list (ps.map fun p => (p.1, 1))
  have hconst : ∀ t : List (ℚ × ℚ), ((t.map fun _ => (1 : ℚ)).sum = t.length) := by
    intro t
    induction t with
    | nil => simp
    | cons q u ih => simp [ih]; ring
  have e1 : sAB (ps.map fun p => (p.1, 1)) = sA ps := by
    unfold sAB sA
    rw [List.map_map]
    exact congrArg List.sum (List.map_congr_left fun p _ => by simp)
  have e2 : sA2 (ps.map fun p => (p.1, 1)) = sA2 ps := by
    unfold sA2
    rw [List.map_map]
    exact congrArg List.sum (List.map_congr_left fun p _ => by simp)
  have e3 : sB2 (ps.map fun p => (p.1, 1)) = ps.length := by
    unfold sB2
    rw [List.map_map]
    rw [show (ps.map ((fun p : ℚ × ℚ => p.2 ^ 2) ∘ fun p : ℚ × ℚ => (p.1, (1:ℚ))))
      = ps.map fun _ => (1 : ℚ) from List.map_congr_left fun p _ => by simp]
    exact hconst ps
  rw [e1, e2, e3] at h
  unfold vxN
  nlinarith [h]

theorem vyN_nonneg (ps : List (ℚ × ℚ)) : 0 ≤ vyN ps := by
  have h := cauchy_list (ps.map fun p => (1, p.2))
  have hconst : ∀ t : List (ℚ × ℚ), ((t.map fun _ => (1 : ℚ)).sum = t.length) := by
    intro t
    induction t with
    | nil => simp
    | cons q u ih => simp [ih]; ring
  have e1 : sAB (ps.map fun p => (1, p.2)) = sB ps := by
    unfold sAB sB
    rw [List.map_map]
    exact congrArg List.sum (List.map_congr_left fun p _ => by simp)
  have e2 : sB2 (ps.map fun p => (1, p.2)) = sB2 ps := by
    unfold sB2
    rw [List.map_map]
    exact congrArg List.sum (List.map_congr_left fun p _ => by simp)
  have e3 : sA2 (ps.map fun p => (1, p.2)) = ps.length := by
    unfold sA2
    rw [List.map_map]
    rw [show (ps.map ((fun p : ℚ × ℚ => p.1 ^ 2) ∘ fun p : ℚ × ℚ => ((1:ℚ), p.2)))
      = ps.map fun _ => (1 : ℚ) from List.map_congr_left fun p _ => by simp]
    exact hconst ps
  rw [e1, e2, e3] at h
  unfold vyN
  nlinarith [h]

/-- Cauchy-Schwarz for the centered statistics: `cov² ≤ vx·vy`, so every
defined Pearson coefficient has absolute value at most 1. -/
theorem covN_sq_le (ps : List (ℚ × ℚ)) : (covN ps) ^ 2 ≤ vxN ps * vyN ps := by
  rcases List.eq_nil_or_concat ps with rfl | _
  case inl => simp [covN, vxN, vyN, sAB, sA, sB, sA2, sB2]
  case inr =>
    set n : ℚ := (ps.length : ℚ) with hn
    set qs : List (ℚ × ℚ) := ps.map fun p => (n * p.1 - sA ps, n * p.2 - sB ps) with hqs
    have e1 : sAB qs = n * covN ps := by
      have : sAB qs = (ps.map fun p => (-(n * sB ps)) * p.1 + (-(n * sA ps)) * p.2
          + (n * n) * (p.1 * p.2) + 0 * p.1 ^ 2 + 0 * p.2 ^ 2 + sA ps * sB ps).sum := by
        rw [hqs]
        unfold sAB
        rw [List.map_map]
        exact congrArg List.sum (List.map_congr_left fun p _ => by simp [Function.comp]; ring)
      rw [this, sum_basis]
      unfold covN
      ring
    have e2 : sA2 qs = n * vxN ps := by
      have : sA2 qs = (ps.map fun p => (-(2 * n * sA ps)) * p.1 + 0 * p.2
          + 0 * (p.1 * p.2) + (n * n) * p.1 ^ 2 + 0 * p.2 ^ 2 + sA ps ^ 2).sum := by
        rw [hqs]
        unfold sA2
        rw [List.map_map]
        exact congrArg List.sum (List.map_congr_left fun p _ => by simp [Function.comp]; ring)
      rw [this, sum_basis]
      unfold vxN
      ring
    have e3 : sB2 qs = n * vyN ps := by
      have : sB2 qs = (ps.map fun p => 0 * p.1 + (-(2 * n * sB ps)) * p.2
          + 0 * (p.1 * p.2) + 0 * p.1 ^ 2 + (n * n) * p.2 ^ 2 + sB ps ^ 2).sum := by
        rw [hqs]
        unfold sB2
        rw [List.map_map]
        exact congrArg List.sum (List.map_congr_left fun p _ => by simp [Function.comp]; ring)
      rw [this, sum_basis]
      unfold vyN
      ring
    have hc := cauchy_list qs
    rw [e1, e2, e3] at hc
    rcases Nat.eq_zero_or_pos ps.length with h0 | hpos
    · rw [List.length_eq_zero] at h0
      subst h0
      simp [covN, vxN, vyN, sAB, sA, sB, sA2, sB2]
    · have hnpos : (0 : ℚ) < n := by rw [hn]; exact_mod_cast hpos
      nlinarith [hc, mul_pos hnpos hnpos]

/-- An exact representation of a defined Pearson coefficient
`c / √p` : the pair `(c, p)` with `p = vx·vy > 0`. -/
abbrev CorrVal := {cp : ℚ × ℚ // 0 < cp.2}

/-- The Pearson correlation of a list of paired observations: defined
exactly when both variances are nonzero (pandas yields NaN otherwise,
including for constant columns and for fewer than two observations). -/
def pearson (ps : List (ℚ × ℚ)) : Option CorrVal :=
  if h : vxN ps ≠ 0 ∧ vyN ps ≠ 0 then
    some ⟨(covN ps, vxN ps * vyN ps),
      mul_pos ((vxN_nonneg ps).lt_of_ne (Ne.symm h.1))
        ((vyN_nonneg ps).lt_of_ne (Ne.symm h.2))⟩
  else none

/-- `c₁/√p₁ ≤ c₂/√p₂` for positive `p₁ p₂`, written without square
roots: compare signs, then squares cross-multiplied. -/
def leR (x y : ℚ × ℚ) : Prop :=
  (0 ≤ x.1 ∧ 0 ≤ y.1 ∧ x.1 ^ 2 * y.2 ≤ y.1 ^ 2 * x.2) ∨
  (x.1 < 0 ∧ 0 ≤ y.1) ∨
  (x.1 < 0 ∧ y.1 < 0 ∧ y.1 ^ 2 * x.2 ≤ x.1 ^ 2 * y.2)

instance : DecidableRel leR := fun x y => by unfold leR; infer_instance

theorem leR_total (u v : ℚ × ℚ) : leR u v ∨ leR v u := by
  rcases le_or_lt 0 u.1 with hu | hu <;> rcases le_or_lt 0 v.1 with hv | hv
  · rcases le_total (u.1 ^ 2 * v.2) (v.1 ^ 2 * u.2) with h | h
    · exact Or.inl (Or.inl ⟨hu, hv, h⟩)
    · exact Or.inr (Or.inl ⟨hv, hu, h⟩)
  · exact Or.inr (Or.inr (Or.inl ⟨hv, hu⟩))
  · exact Or.inl (Or.inr (Or.inl ⟨hu, hv⟩))
  · rcases le_total (v.1 ^ 2 * u.2) (u.1 ^ 2 * v.2) with h | h
    · exact Or.inl (Or.inr (Or.inr ⟨hu, hv, h⟩))
    · exact Or.inr (Or.inr (Or.inr ⟨hv, hu, h⟩))

/-- Transitivity of the cross-multiplied square comparison. -/
theorem sq_cross_trans {a b c pa pb pc : ℚ} (hpa : 0 < pa) (hpb : 0 < pb)
    (hpc : 0 < pc) (h1 : a ^ 2 * pb ≤ b ^ 2 * pa) (h2 : b ^ 2 * pc ≤ c ^ 2 * pb) :
    a ^ 2 * pc ≤ c ^ 2 * pa := by
  rcases eq_or_lt_of_le (sq_nonneg b) with hb0 | hbpos
  · have ha : a ^ 2 ≤ 0 := by nlinarith
    have ha0 : a ^ 2 = 0 := le_antisymm ha (sq_nonneg a)
    rw [ha0]
    nlinarith [sq_nonneg c]
  · nlinarith [mul_le_mul_of_nonneg_right h1 hpc.le,
      mul_le_mul_of_nonneg_right h2 hpa.le, hpb]

theorem leR_trans {u v w : ℚ × ℚ} (hu : 0 < u.2) (hv : 0 < v.2) (hw : 0 < w.2)
    (h1 : leR u v) (h2 : leR v w) : leR u w := by
  rcases h1 with ⟨hu1, hv1, h1⟩ | ⟨hu1, hv1⟩ | ⟨hu1, hv1, h1⟩ <;>
    rcases h2 with ⟨hv2, hw2, h2⟩ | ⟨hv2, hw2⟩ | ⟨hv2, hw2, h2⟩
  · exact Or.inl ⟨hu1, hw2, sq_cross_trans hu hv hw h1 h2⟩
  · exact absurd hv2 (not_lt.mpr hv1)
  · exact absurd hv2 (not_lt.mpr hv1)
  · exact Or.inr (Or.inl ⟨hu1, hw2⟩)
  · exact absurd hv2 (not_lt.mpr hv1)
  · exact absurd hv2 (not_lt.mpr hv1)
  · exact absurd hv1 (not_lt.mpr hv2)
  · exact Or.inr (Or.inl ⟨hu1, hw2⟩)
  · exact Or.inr (Or.inr ⟨hu1, hw2, sq_cross_trans hw hv hu h2 h1⟩)

/-- The comparison used by `sort_values(ascending=False)`: an entry
precedes another when its correlation value is at least the other's. -/
def entGe (x y : String × CorrVal) : Prop := leR y.2.1 x.2.1

instance : DecidableRel entGe := fun x y => by unfold entGe; infer_instance

instance : IsTotal (String × CorrVal) entGe :=
  ⟨fun a b => leR_total b.2.1 a.2.1⟩

instance : IsTrans (String × CorrVal) entGe :=
  ⟨fun a b c h1 h2 => leR_trans c.2.2 b.2.2 a.2.2 h2 h1⟩

/-- `batters.corr().Points` (line 33): one entry per column, pairing the
column name with its (possibly undefined) correlation with Points. -/
def corrSeries (e : DF) : List (String × Option CorrVal) :=
  e.cols.map fun c => (c, pearson (pairsOf e c "Points"))

/-- `corrs.dropna(inplace=True)` (line 34): drop undefined entries. -/
def corrsDropped (e : DF) : List (String × CorrVal) :=
  (corrSeries e).filterMap fun x => x.2.map fun v => (x.1, v)

/-- `corrs.sort_values(ascending=False)` (line 35). -/
def corrsSorted (e : DF) : List (String × CorrVal) :=
  List.insertionSort entGe (corrsDropped e)

/-- `top_pos = corrs.head(30)` (line 36). -/
def top_pos (e : DF) : List (String × CorrVal) := (corrsSorted e).take 30

/-- `bot_pos = corrs.tail(10)` (line 37): the last 10 entries. -/
def bot_pos (e : DF) : List (String × CorrVal) :=
  (corrsSorted e).drop ((corrsSorted e).length - 10)

/-- `variables = list(top_pos.head(30).index) + list(bot_pos.head(10).index)`
(line 38). -/
def variablesOf (e : DF) : List String :=
  ((top_pos e).take 30).map Prod.fst ++ ((bot_pos e).take 10).map Prod.fst

/-- **C3.** After dropping undefined correlations, the candidate list is
built from the correlations sorted in descending order — the sorted list
is a permutation of the dropped series arranged nonincreasingly — by
concatenating the names of the top 30 entries and then the names of the
bottom 10 entries, in that order. -/
theorem variables_selection (e : DF) :
    (corrsSorted e).Perm (corrsDropped e) ∧
    (corrsSorted e).Sorted entGe ∧
    variablesOf e = ((corrsSorted e).take 30).map Prod.fst
      ++ ((corrsSorted e).drop ((corrsSorted e).length - 10)).map Prod.fst := by
  refine ⟨List.perm_insertionSort entGe _, List.sorted_insertionSort entGe _, ?_⟩
  unfold variablesOf top_pos bot_pos
  rw [List.take_take]
  congr 2
  apply List.take_of_length_le
  rw [List.length_drop]
  omega

/-- Membership in the post-dropna series: exactly the columns whose
correlation with Points is defined, with that value. -/
theorem mem_corrsDropped {e : DF} {c : String} {v : CorrVal} :
    (c, v) ∈ corrsDropped e ↔
      c ∈ e.cols ∧ pearson (pairsOf e c "Points") = some v := by
  unfold corrsDropped corrSeries
  constructor
  · intro h
    rcases List.mem_filterMap.mp h with ⟨x, hx, hmap⟩
    rcases List.mem_map.mp hx with ⟨col, hcol, hxe⟩
    cases hxe
    cases hpe : pearson (pairsOf e col "Points") with
    | none => rw [hpe] at hmap; simp at hmap
    | some w =>
      rw [hpe] at hmap
      simp only [Option.map_some, Option.some.injEq, Prod.mk.injEq] at hmap
      obtain ⟨rfl, rfl⟩ := hmap
      exact ⟨hcol, hpe⟩
  · intro ⟨hc, hpe⟩
    exact List.mem_filterMap.mpr
      ⟨(c, pearson (pairsOf e c "Points")), List.mem_map.mpr ⟨c, hc, rfl⟩,
        by rw [hpe]; rfl⟩

/-- **C6.** A column whose correlation with Points is undefined (zero
variance or no overlapping defined rows) is dropped from the result set
before sorting: it never appears in the dropped series with any value —
so it is never treated as a zero correlation — and it never appears in
the candidate variable list. -/
theorem undefined_corr_excluded (e : DF) (c : String)
    (h : pearson (pairsOf e c "Points") = none) :
    (∀ v : CorrVal, (c, v) ∉ corrsDropped e) ∧
    c ∉ (corrsDropped e).map Prod.fst ∧
    c ∉ variablesOf e := by
  have h1 : ∀ v : CorrVal, (c, v) ∉ corrsDropped e := by
    intro v hv
    have := (mem_corrsDropped.mp hv).2
    rw [h] at this
    exact Option.noConfusion this
  have h2 : c ∉ (corrsDropped e).map Prod.fst := by
    intro hc
    rcases List.mem_map.mp hc with ⟨x, hx, hx1⟩
    obtain ⟨c', v⟩ := x
    cases hx1
    exact h1 v hx
  refine ⟨h1, h2, ?_⟩
  intro hv
  have hsor : c ∈ (corrsSorted e).map Prod.fst := by
    unfold variablesOf top_pos bot_pos at hv
    rcases List.mem_append.mp hv with h' | h'
    · exact (((List.take_sublist _ _).trans (List.take_sublist _ _)).map
        Prod.fst).subset h'
    · exact (((List.take_sublist _ _).trans (List.drop_sublist _ _)).map
        Prod.fst).subset h'
  have hperm : ((corrsSorted e).map Prod.fst).Perm ((corrsDropped e).map Prod.fst) :=
    (List.perm_insertionSort entGe (corrsDropped e)).map Prod.fst
  exact h2 (hperm.mem_iff.mp hsor)

/-- A dataset with a constant column "K" (two identical rows, so both "K"
and Points are constant). -/
def wdf6 : DF where
  cols := ["K"]
  rows := [fun _ => some 1, fun _ => some 1]

/-- Witness for C6: the constant column "K" has undefined correlation and
is excluded from the candidate list. -/
theorem undefined_corr_excluded_witness :
    "K" ∉ variablesOf (addPoints wdf6) := by
  have hpair : pairsOf (addPoints wdf6) "K" "Points" = [(1, 27/2), (1, 27/2)] := by
    simp +decide only [pairsOf, addPoints, wdf6, pointsRow, omul, oadd,
      List.map_cons, List.map_nil, List.filterMap_cons, List.filterMap_nil]
    norm_num
  have h : pearson (pairsOf (addPoints wdf6) "K" "Points") = none := by
    rw [hpair]
    unfold pearson
    rw [dif_neg]
    intro hcon
    exact hcon.1 (by norm_num [vxN, sA2, sA])
  exact (undefined_corr_excluded (addPoints wdf6) "K" h).2.2

/-! ## Points' self-correlation and the top of the ranking (C9) -/

/-- The represented coefficient `c/√p` equals 1: positive numerator whose
square is the denominator. -/
def isOne (v : CorrVal) : Prop := 0 < v.1.1 ∧ v.1.1 ^ 2 = v.1.2

theorem leR_refl (u : ℚ × ℚ) : leR u u := by
  rcases le_or_lt 0 u.1 with h | h
  · exact Or.inl ⟨h, h, le_refl _⟩
  · exact Or.inr (Or.inr ⟨h, h, le_refl _⟩)

/-- The pairwise observations of a column with itself are diagonal. -/
theorem pairsOf_self (df : DF) (c : String) :
    ∀ p ∈ pairsOf df c c, p.1 = p.2 := by
  intro p hp
  rcases List.mem_filterMap.mp hp with ⟨r, _, hm⟩
  cases h1 : r c with
  | none => rw [h1] at hm; exact Option.noConfusion hm
  | some a =>
    rw [h1] at hm
    simp only [Option.some.injEq] at hm
    rw [← hm]

/-- On diagonal observations the second-coordinate statistics collapse to
the first-coordinate ones. -/
theorem self_sums (ps : List (ℚ × ℚ)) (h : ∀ p ∈ ps, p.1 = p.2) :
    sB ps = sA ps ∧ sAB ps = sA2 ps ∧ sB2 ps = sA2 ps := by
  induction ps with
  | nil => simp [sA, sB, sAB, sA2, sB2]
  | cons p t ih =>
    have hp : p.1 = p.2 := h p (List.mem_cons_self p t)
    have ih2 := ih fun q hq => h q (List.mem_cons_of_mem p hq)
    simp only [sA_cons, sB_cons, sAB_cons, sA2_cons, sB2_cons,
      ih2.1, ih2.2.1, ih2.2.2, ← hp]
    exact ⟨trivial, by rw [sq], by ring_nf⟩

/-- A defined self-correlation is exactly 1. -/
theorem pearson_self_isOne {ps : List (ℚ × ℚ)} {v : CorrVal}
    (hpe : pearson ps = some v) (hself : ∀ p ∈ ps, p.1 = p.2) : isOne v := by
  obtain ⟨hBA, hABA, hB2A⟩ := self_sums ps hself
  have hcv : covN ps = vxN ps := by unfold covN vxN; rw [hBA, hABA]; ring
  have hvy : vyN ps = vxN ps := by unfold vyN vxN; rw [hBA, hB2A]
  by_cases hc : vxN ps ≠ 0 ∧ vyN ps ≠ 0
  · unfold pearson at hpe
    rw [dif_pos hc] at hpe
    simp only [Option.some.injEq] at hpe
    have hx : 0 < vxN ps := (vxN_nonneg ps).lt_of_ne (Ne.symm hc.1)
    constructor
    · rw [← hpe]
      simpa [hcv] using hx
    · rw [← hpe]
      simp only
      rw [hcv, hvy]
      ring
  · unfold pearson at hpe
    rw [dif_neg hc] at hpe
    exact Option.noConfusion hpe

/-- Every defined coefficient is at most 1 (Cauchy-Schwarz). -/
theorem pearson_le_one {ps : List (ℚ × ℚ)} {v : CorrVal}
    (hpe : pearson ps = some v) : v.1.1 ^ 2 ≤ v.1.2 := by
  by_cases hc : vxN ps ≠ 0 ∧ vyN ps ≠ 0
  · unfold pearson at hpe
    rw [dif_pos hc] at hpe
    simp only [Option.some.injEq] at hpe
    rw [← hpe]
    exact covN_sq_le ps
  · unfold pearson at hpe
    rw [dif_neg hc] at hpe
    exact Option.noConfusion hpe

/-- A coefficient at least 1 and at most 1 is 1. -/
theorem isOne_of_ge_one {v w : CorrVal} (hone : isOne v)
    (hle : leR v.1 w.1) (hw : w.1.1 ^ 2 ≤ w.1.2) : isOne w := by
  obtain ⟨hvpos, hvsq⟩ := hone
  rcases hle with ⟨_, hw0, hineq⟩ | ⟨hneg, _⟩ | ⟨hneg, _, _⟩
  · -- v.1.1^2 * w.1.2 ≤ w.1.1^2 * v.1.2 with v.1.2 = v.1.1^2
    rw [hvsq] at hineq
    have hsq : w.1.2 ≤ w.1.1 ^ 2 := by
      have hv2 : 0 < v.1.1 ^ 2 := by positivity
      nlinarith [hineq, hv2]
    have hweq : w.1.1 ^ 2 = w.1.2 := le_antisymm hw hsq
    refine ⟨?_, hweq⟩
    rcases eq_or_lt_of_le hw0 with h0 | h0
    · exfalso
      rw [← h0] at hweq
      have := w.2
      simp only [← hweq] at this
      exact absurd this (by norm_num)
    · exact h0
  · exact absurd hvpos (not_lt.mpr hneg.le)
  · exact absurd hvpos (not_lt.mpr hneg.le)

/-- **C9 (amended).** Provided the Points column's self-correlation is
defined — it is non-constant over at least two defined rows — and no
other column's correlation with Points equals exactly 1, the sorted
correlation list starts with the entry ("Points", v) whose coefficient is
exactly 1; hence the top-30 list contains "Points" at rank 1 with
correlation 1.0. (The original claim fails when Points is constant: its
self-correlation is then undefined and dropped, see the counterexample.) -/
theorem points_rank_amended (df : DF) (hp : "Points" ∉ df.cols) (v : CorrVal)
    (hdef : pearson (pairsOf (addPoints df) "Points" "Points") = some v)
    (hties : ∀ c ∈ df.cols, ∀ w : CorrVal,
      pearson (pairsOf (addPoints df) c "Points") = some w → ¬ isOne w) :
    isOne v ∧
    (corrsSorted (addPoints df)).head? = some ("Points", v) ∧
    (((corrsSorted (addPoints df)).take 30).map Prod.fst).head? = some "Points" := by
  have hcols : (addPoints df).cols = df.cols ++ ["Points"] := by
    simp [addPoints, hp]
  have hv1 : isOne v := pearson_self_isOne hdef (pairsOf_self (addPoints df) "Points")
  have hmemd : ("Points", v) ∈ corrsDropped (addPoints df) :=
    mem_corrsDropped.mpr ⟨by rw [hcols]; simp, hdef⟩
  have hmems : ("Points", v) ∈ corrsSorted (addPoints df) :=
    (List.perm_insertionSort entGe _).mem_iff.mpr hmemd
  have hsor : (corrsSorted (addPoints df)).Sorted entGe :=
    List.sorted_insertionSort entGe _
  rcases hcs : corrsSorted (addPoints df) with _ | ⟨h0, t⟩
  · rw [hcs] at hmems
    exact absurd hmems (List.not_mem_nil _)
  rw [hcs] at hmems hsor
  have hge : entGe h0 ("Points", v) := by
    rcases List.mem_cons.mp hmems with heq | hmem
    · rw [← heq]
      exact leR_refl _
    · exact (List.sorted_cons.mp hsor).1 _ hmem
  have hmemsorted : h0 ∈ corrsSorted (addPoints df) := by
    rw [hcs]
    exact List.mem_cons_self h0 t
  have hh0d : h0 ∈ corrsDropped (addPoints df) :=
    (List.perm_insertionSort entGe _).subset hmemsorted
  obtain ⟨c0, w0⟩ := h0
  obtain ⟨hc0cols, hw0⟩ := mem_corrsDropped.mp hh0d
  have hw0le : w0.1.1 ^ 2 ≤ w0.1.2 := pearson_le_one hw0
  have hw0one : isOne w0 := isOne_of_ge_one hv1 hge hw0le
  have hc0 : c0 = "Points" := by
    rw [hcols] at hc0cols
    rcases List.mem_append.mp hc0cols with hin | hin
    · exact absurd hw0one (hties c0 hin w0 hw0)
    · simpa using hin
  subst hc0
  have hw0v : w0 = v := by
    rw [hdef] at hw0
    exact (Option.some.inj hw0).symm
  subst hw0v
  refine ⟨hv1, ?_, ?_⟩
  · rfl
  · rw [List.take_succ_cons, List.map_cons]
    rfl

/-- A dataset on which Points is constant: two all-zero rows. -/
def cdf9 : DF where
  cols := []
  rows := [fun _ => some 0, fun _ => some 0]

/-- **C9 (counterexample).** On a dataset where every stat is zero, Points
is the constant 0, its self-correlation is undefined and dropped, and the
top-30 list does not contain "Points" at all — refuting the claim that it
always sits at rank 1 with correlation 1.0. -/
theorem points_rank_counterexample :
    "Points" ∉ ((corrsSorted (addPoints cdf9)).take 30).map Prod.fst := by
  have hcols9 : (addPoints cdf9).cols = ["Points"] := by
    simp +decide [addPoints, cdf9]
  have hpair : pairsOf (addPoints cdf9) "Points" "Points" = [(0, 0), (0, 0)] := by
    simp +decide only [pairsOf, addPoints, cdf9, pointsRow, omul, oadd,
      List.map_cons, List.map_nil, List.filterMap_cons, List.filterMap_nil]
    norm_num
  have h : pearson (pairsOf (addPoints cdf9) "Points" "Points") = none := by
    rw [hpair]
    unfold pearson
    rw [dif_neg]
    intro hcon
    exact hcon.1 (by norm_num [vxN, sA2, sA])
  have hdrop : corrsDropped (addPoints cdf9) = [] := by
    unfold corrsDropped corrSeries
    rw [hcols9]
    simp [h]
  have hsort : corrsSorted (addPoints cdf9) = [] := by
    unfold corrsSorted
    rw [hdrop]
    rfl
  rw [hsort]
  simp

/-- A dataset with no original columns and a non-constant Points column. -/
def wdf9 : DF where
  cols := []
  rows := [fun _ => some 1, fun _ => some 0]

/-- Witness for the amended C9 at a concrete dataset: Points takes the
values 27/2 and 0, its self-correlation is defined and equal to 1, and it
heads the top-30 list. -/
theorem points_rank_amended_witness :
    isOne ⟨(729/4, 531441/16), by norm_num⟩ ∧
    (corrsSorted (addPoints wdf9)).head?
      = some ("Points", ⟨(729/4, 531441/16), by norm_num⟩) ∧
    (((corrsSorted (addPoints wdf9)).take 30).map Prod.fst).head?
      = some "Points" := by
  have hpair : pairsOf (addPoints wdf9) "Points" "Points" = [(27/2, 27/2), (0, 0)] := by
    simp +decide only [pairsOf, addPoints, wdf9, pointsRow, omul, oadd,
      List.map_cons, List.map_nil, List.filterMap_cons, List.filterMap_nil]
    norm_num
  have hdef : pearson (pairsOf (addPoints wdf9) "Points" "Points")
      = some ⟨(729/4, 531441/16), by norm_num⟩ := by
    rw [hpair]
    unfold pearson
    rw [dif_pos (show vxN [((27:ℚ)/2, (27:ℚ)/2), (0, 0)] ≠ 0
        ∧ vyN [((27:ℚ)/2, (27:ℚ)/2), (0, 0)] ≠ 0 from by
      constructor <;> norm_num [vxN, vyN, sA, sB, sA2, sB2])]
    refine congrArg some (Subtype.ext ?_)
    simp only [Prod.mk.injEq]
    constructor <;> norm_num [covN, vxN, vyN, sA, sB, sAB, sA2, sB2]
  exact points_rank_amended wdf9 (by simp [wdf9]) _ hdef
    (by intro c hc; simp [wdf9] at hc)

end Batters
